import Mathlib

/-!
Verification of the `@ovotech/json-schema` validation helpers
(`packages/json-schema/src/helpers.ts`): a shallow embedding of the
JS-value space, the deep-equality helper `isEqual`, the dispatcher
`validateSchema`, the context builder `childOptions`, the result
aggregator `flatten`, and the comparator de-duplicator `isUniqueWith`,
together with proofs of their specified properties.
-/

namespace Laminar

/-- A JSON-like JavaScript runtime value as distinguished by the helpers:
`undefined`, `null`, booleans, numbers, strings, `Date` objects (compared
by their timestamp), arrays, and plain objects (ordered lists of
key/value fields; JS objects never hold a duplicate key). -/
inductive JsValue where
  | undefined
  | null
  | bool (b : Bool)
  | num (n : Int)
  | str (s : String)
  | date (time : Int)
  | arr (items : List JsValue)
  | obj (fields : List (String × JsValue))
  deriving Repr

/-- JS strict equality `===` on the values of `JsValue`. Primitives
compare by value. Object-typed values (`date`, `arr`, `obj`) compare by
reference in JS; the embedding has no aliasing, so `===` is `false`
there — observationally equivalent, because `isEqual` on a value and
itself returns `true` through the structural branch (`isEqual_refl`). -/
def strictEq : JsValue → JsValue → Bool
  | .undefined, .undefined => true
  | .null, .null => true
  | .bool a, .bool b => a == b
  | .num a, .num b => a == b
  | .str a, .str b => a == b
  | _, _ => false

/-- `a === undefined || a === null`, the guard on line 18 of `helpers.ts`. -/
def JsValue.isNullish : JsValue → Bool
  | .undefined => true
  | .null => true
  | _ => false

/-- JS property read `fields[key]` on an object's own fields: the value of
the first field with that key, `undefined` when absent. -/
def jsGetF (fields : List (String × JsValue)) (key : String) : JsValue :=
  match fields.find? (fun p => p.1 == key) with
  | some p => p.2
  | none => .undefined

/-- `Array.prototype.sort()` on an array of keys: stable sort in
lexicographic string order (modelled with insertion sort). -/
def sortKeys (keys : List String) : List String :=
  List.insertionSort (· ≤ ·) keys

/-- What `isEqual(aKeys, bKeys)` computes when `aKeys` and `bKeys` are two
(distinct, hence not `===`) JS arrays of strings: equal length and
pointwise equal elements (`isEqual` on two strings is string equality).
`strArrEq_eq_isEqual` proves this definition coherent with `isEqual`. -/
def strArrEq (xs ys : List String) : Bool :=
  xs.length == ys.length && (xs.zip ys).all (fun p => p.1 == p.2)

theorem sizeOf_jsGetF_lt (fields : List (String × JsValue)) (key : String) :
    sizeOf (jsGetF fields key) < 1 + sizeOf fields := by
  have h1 : 1 ≤ sizeOf fields := by
    cases fields with
    | nil => simp
    | cons x xs => simp; omega
  unfold jsGetF
  cases h : fields.find? (fun p => p.1 == key) with
  | none => simp; omega
  | some p =>
    have hmem : p ∈ fields := List.mem_of_find?_eq_some h
    have hlt : sizeOf p < sizeOf fields := List.sizeOf_lt_of_mem hmem
    obtain ⟨k, v⟩ := p
    simp at hlt ⊢
    omega

theorem mem_zip_self {α : Type _} {p : α × α} :
    ∀ {xs : List α}, p ∈ xs.zip xs → p.1 = p.2 ∧ p.1 ∈ xs := by
  intro xs
  induction xs with
  | nil => intro h; simp [List.zip] at h
  | cons x xs ih =>
    intro h
    rw [List.zip_cons_cons] at h
    rcases List.mem_cons.mp h with h | h
    · subst h; exact ⟨rfl, List.mem_cons_self _ _⟩
    · obtain ⟨h1, h2⟩ := ih h
      exact ⟨h1, List.mem_cons_of_mem _ h2⟩

/-- The deep-equality helper `isEqual` from `helpers.ts`, faithfully:
strict equality first; `undefined`/`null` never deep-equal anything else;
two `Date`s compare by timestamp; two arrays by length and element-wise
recursion; two non-array objects by comparing key lists and then each
key's values — where, as in the source, `bKeys` is derived from `a`
(`Object.keys(a).sort()` twice), not from `b`. `Object.keys` of a `Date`
is `[]` and reading any property of it gives `undefined`, so the
non-array-object branch also covers `Date` vs plain object. A mixed
array/non-array pair falls through every branch to `false`. -/
def isEqual (a b : JsValue) : Bool :=
  if strictEq a b then
    true
  else if a.isNullish || b.isNullish then
    false
  else
    match a, b with
    | .date ta, .date tb => ta == tb
    | .arr xs, .arr ys =>
        (xs.length == ys.length) &&
        (xs.zip ys).attach.all (fun p => isEqual p.1.1 p.1.2)
    | .obj fa, .obj fb =>
        let aKeys := sortKeys (fa.map Prod.fst)
        let bKeys := sortKeys (fa.map Prod.fst)
        strArrEq aKeys bKeys && aKeys.all (fun key => isEqual (jsGetF fa key) (jsGetF fb key))
    | .obj fa, .date _ =>
        let aKeys := sortKeys (fa.map Prod.fst)
        let bKeys := sortKeys (fa.map Prod.fst)
        strArrEq aKeys bKeys && aKeys.all (fun key => isEqual (jsGetF fa key) (jsGetF [] key))
    | .date _, .obj fb =>
        let aKeys := sortKeys ([] : List String)
        let bKeys := sortKeys ([] : List String)
        strArrEq aKeys bKeys && aKeys.all (fun key => isEqual (jsGetF [] key) (jsGetF fb key))
    | _, _ => false
  termination_by sizeOf a + sizeOf b
  decreasing_by
  all_goals simp_wf
  · obtain ⟨⟨x, y⟩, hmem⟩ := p
    obtain ⟨h1, h2⟩ := List.of_mem_zip hmem
    have d1 := List.sizeOf_lt_of_mem h1
    have d2 := List.sizeOf_lt_of_mem h2
    simp at d1 d2 ⊢
    omega
  · have d1 := sizeOf_jsGetF_lt fa key
    have d2 := sizeOf_jsGetF_lt fb key
    omega
  · have d1 := sizeOf_jsGetF_lt fa key
    have d2 := sizeOf_jsGetF_lt ([] : List (String × JsValue)) key
    simp at d2
    omega
  · have d1 := sizeOf_jsGetF_lt ([] : List (String × JsValue)) key
    have d2 := sizeOf_jsGetF_lt fb key
    simp at d1
    omega

/-- The error triple `{ code, name, param }` reported by the validators;
`param` is `undefined` (`JsValue.undefined`) when the keyword supplies none. -/
structure ValidationError where
  code : String
  name : String
  param : JsValue
  deriving Repr

/-- A Schema Object: a mapping from keyword name to keyword-specific
value (opaque to the dispatcher, which only hands it to the registered
keyword validators). -/
abbrev JsonSchema := List (String × JsValue)

/-- Modelled from the spec: the `Schema` type of
`src/packages/json-schema/src/types.ts` (that file is not under `src/`).
Per spec §3 a schema is the literal boolean `true`/`false` or a Schema
Object; the dispatcher additionally guards against the falsy non-schema
arguments `null` and `undefined` (spec §4.1, defensive default). -/
inductive Schema where
  | bool (b : Bool)
  | obj (s : JsonSchema)
  | null
  | undefined

/-- Modelled from the spec: the `ValidateOptions` record of
`src/packages/json-schema/src/types.ts` (not under `src/`). Spec §3:
`{ name (current path prefix), validators (ordered list of keyword
validators), refs (resolved-reference cache), root (root schema) }`.
The validator functions are kept abstract behind the type parameter `V`
and an application function passed to `validateSchema`, since a record
holding functions over itself is not an inductive type. -/
structure ValidateOptions (V : Type) where
  name : String
  validators : List V
  refs : List (String × Schema)
  root : Schema

/-- The argument `name: string | number` of `childOptions`. -/
inductive PathKey where
  | str (s : String)
  | num (n : Int)

/-- Template-literal interpolation `${name}` of a path key. -/
def PathKey.render : PathKey → String
  | .str s => s
  | .num n => toString n

/-- `childOptions` from `helpers.ts`: spread the options and replace
`name` with `` `${options.name}.${name}` `` — every other field is copied
unchanged, and the argument record is left untouched. -/
def childOptions {V : Type} (name : PathKey) (options : ValidateOptions V) :
    ValidateOptions V :=
  { options with name := options.name ++ "." ++ name.render }

/-- `flatten` from `helpers.ts`: push every error of every result list,
in order, into one combined list. -/
def flatten {T : Type} (results : List (List T)) : List T :=
  results.foldl (fun combined result => combined ++ result) []

/-- `isUniqueWith`'s loop: `items` is the accumulator of kept elements;
each input element is appended exactly when no already-kept element
compares equal to it. -/
def isUniqueWithAux {T : Type} (compare : T → T → Bool) (items : List T) :
    List T → List T
  | [] => items
  | item :: rest =>
    if items.any (fun prev => compare prev item) then
      isUniqueWithAux compare items rest
    else
      isUniqueWithAux compare (items ++ [item]) rest

/-- `isUniqueWith` from `helpers.ts`. -/
def isUniqueWith {T : Type} (compare : T → T → Bool) (array : List T) : List T :=
  isUniqueWithAux compare [] array

/-- The claim's description of `isUniqueWith` stated independently as a
left fold: scan the input in order, keeping an element exactly when no
earlier kept element compares equal to it. -/
def keepFirstBySpec {T : Type} (compare : T → T → Bool) (xs : List T) : List T :=
  xs.foldl
    (fun items item =>
      if items.any (fun prev => compare prev item) then items else items ++ [item])
    []

/-- `NoErrors` from `helpers.ts`. -/
def NoErrors : List ValidationError := []

/-- `HasError` from `helpers.ts` (the optional `param` passed explicitly,
`JsValue.undefined` when the caller omits it). -/
def HasError (code : String) (name : String) (param : JsValue) :
    List ValidationError :=
  [{ code := code, name := name, param := param }]

/-- The dispatcher `validateSchema` from `helpers.ts`:
`schema === true` → no errors; `schema === false` → the single `"false"`
error at the current path; a truthy schema (a Schema Object) → run every
registered validator and flatten; a falsy schema (`null`/`undefined`) →
no errors. `run` applies an abstract validator value to its arguments
(in the source, validators are plain functions and `run` is function
application). -/
def validateSchema {V : Type}
    (run : V → JsonSchema → JsValue → ValidateOptions V → List ValidationError)
    (schema : Schema) (value : JsValue) (options : ValidateOptions V) :
    List ValidationError :=
  match schema with
  | .bool true => []
  | .bool false => [{ code := "false", name := options.name, param := .bool false }]
  | .obj s =>
      flatten (options.validators.map (fun validator => run validator s value options))
  | .null => []
  | .undefined => []

/-! ### Invariants of the `isUniqueWith` loop -/

theorem isUniqueWithAux_append {T : Type} (compare : T → T → Bool)
    (items : List T) (rest : List T) :
    ∃ s, isUniqueWithAux compare items rest = items ++ s ∧ s.Sublist rest := by
  induction rest generalizing items with
  | nil => exact ⟨[], by simp [isUniqueWithAux], List.nil_sublist _⟩
  | cons x xs ih =>
    by_cases h : items.any (fun prev => compare prev x) = true
    · obtain ⟨s, hs, hsub⟩ := ih items
      exact ⟨s, by simp [isUniqueWithAux, h, hs],
        hsub.trans (List.sublist_cons_self _ _)⟩
    · obtain ⟨s, hs, hsub⟩ := ih (items ++ [x])
      refine ⟨x :: s, ?_, hsub.cons₂ x⟩
      simp [isUniqueWithAux, h, hs]

theorem isUniqueWithAux_pairwise {T : Type} (compare : T → T → Bool)
    (items : List T) (rest : List T)
    (h : items.Pairwise (fun y z => compare y z = false)) :
    (isUniqueWithAux compare items rest).Pairwise
      (fun y z => compare y z = false) := by
  induction rest generalizing items with
  | nil => simpa [isUniqueWithAux] using h
  | cons x xs ih =>
    by_cases hx : items.any (fun prev => compare prev x) = true
    · simpa [isUniqueWithAux, hx] using ih items h
    · have hall : ∀ y ∈ items, compare y x = false := by
        intro y hy
        by_contra hcy
        exact hx (List.any_eq_true.mpr ⟨y, hy, by simpa using hcy⟩)
      have hpx : (items ++ [x]).Pairwise (fun y z => compare y z = false) := by
        rw [List.pairwise_append]
        exact ⟨h, by simp, by simpa using hall⟩
      simpa [isUniqueWithAux, hx] using ih (items ++ [x]) hpx

theorem isUniqueWithAux_complete {T : Type} (compare : T → T → Bool)
    (items : List T) (rest : List T) :
    ∀ x ∈ rest, x ∈ isUniqueWithAux compare items rest ∨
      ∃ y ∈ isUniqueWithAux compare items rest, compare y x = true := by
  induction rest generalizing items with
  | nil => intro x hx; simp at hx
  | cons z zs ih =>
    intro x hx
    by_cases hz : items.any (fun prev => compare prev z) = true
    · rw [List.mem_cons] at hx
      rcases hx with rfl | hx
      · obtain ⟨y, hy, hcy⟩ := List.any_eq_true.mp hz
        obtain ⟨s, hs, -⟩ := isUniqueWithAux_append compare items zs
        right
        refine ⟨y, ?_, by simpa using hcy⟩
        simp [isUniqueWithAux, hz, hs, List.mem_append, hy]
      · simpa [isUniqueWithAux, hz] using ih items x hx
    · rw [List.mem_cons] at hx
      rcases hx with rfl | hx
      · obtain ⟨s, hs, -⟩ := isUniqueWithAux_append compare (items ++ [x]) zs
        left
        simp [isUniqueWithAux, hz, hs, List.mem_append]
      · simpa [isUniqueWithAux, hz] using ih (items ++ [z]) x hx

theorem isUniqueWithAux_of_pairwise {T : Type} (compare : T → T → Bool)
    (items : List T) (rest : List T)
    (hcross : ∀ x ∈ rest, ∀ y ∈ items, compare y x = false)
    (hp : rest.Pairwise (fun y z => compare y z = false)) :
    isUniqueWithAux compare items rest = items ++ rest := by
  induction rest generalizing items with
  | nil => simp [isUniqueWithAux]
  | cons x xs ih =>
    have hx : ¬items.any (fun prev => compare prev x) = true := by
      intro hany
      obtain ⟨y, hy, hcy⟩ := List.any_eq_true.mp hany
      have := hcross x (List.mem_cons_self _ _) y hy
      simp [this] at hcy
    rw [List.pairwise_cons] at hp
    have : isUniqueWithAux compare (items ++ [x]) xs = (items ++ [x]) ++ xs := by
      refine ih (items ++ [x]) (fun z hz y hy => ?_) hp.2
      rw [List.mem_append] at hy
      rcases hy with hy | hy
      · exact hcross z (List.mem_cons_of_mem _ hz) y hy
      · rw [List.mem_singleton] at hy
        subst hy
        exact hp.1 z hz
    simp [isUniqueWithAux, hx, this]

theorem isUniqueWithAux_eq_foldl {T : Type} (compare : T → T → Bool)
    (items : List T) (rest : List T) :
    isUniqueWithAux compare items rest =
      rest.foldl
        (fun its item =>
          if its.any (fun prev => compare prev item) then its else its ++ [item])
        items := by
  induction rest generalizing items with
  | nil => rfl
  | cons x xs ih =>
    rw [List.foldl_cons]
    simp only [isUniqueWithAux]
    by_cases h : items.any (fun prev => compare prev x) = true
    · rw [if_pos h, if_pos h, ih]
    · rw [if_neg h, if_neg h, ih]

/-! ### Unfolding and structural lemmas for `isEqual` -/

theorem attach_all_isEqual (l : List (JsValue × JsValue)) :
    (l.attach.all fun p => isEqual p.1.1 p.1.2) =
      l.all fun q => isEqual q.1 q.2 := by
  rw [Bool.eq_iff_iff]
  simp only [List.all_eq_true]
  constructor
  · intro h q hq
    exact h ⟨q, hq⟩ (List.mem_attach _ _)
  · intro h p _
    exact h p.1 p.2

theorem isEqual_arr_arr (xs ys : List JsValue) :
    isEqual (.arr xs) (.arr ys) =
      ((xs.length == ys.length) &&
        (xs.zip ys).attach.all (fun p => isEqual p.1.1 p.1.2)) := by
  simp only [isEqual, strictEq, JsValue.isNullish]
  rfl

theorem isEqual_obj_obj (fa fb : List (String × JsValue)) :
    isEqual (.obj fa) (.obj fb) =
      (strArrEq (sortKeys (fa.map Prod.fst)) (sortKeys (fa.map Prod.fst)) &&
        (sortKeys (fa.map Prod.fst)).all
          (fun key => isEqual (jsGetF fa key) (jsGetF fb key))) := by
  simp only [isEqual, strictEq, JsValue.isNullish]
  rfl

theorem isEqual_str (x y : String) : isEqual (.str x) (.str y) = (x == y) := by
  by_cases h : x = y <;> simp [isEqual, strictEq, h]

/-- Coherence of `strArrEq` with the source: on two (distinct) JS arrays
of strings, `isEqual` computes exactly `strArrEq`. -/
theorem strArrEq_eq_isEqual (xs ys : List String) :
    isEqual (.arr (xs.map JsValue.str)) (.arr (ys.map JsValue.str)) =
      strArrEq xs ys := by
  rw [isEqual_arr_arr, attach_all_isEqual, strArrEq]
  rw [Bool.eq_iff_iff]
  simp only [Bool.and_eq_true, List.all_eq_true, List.length_map, List.zip_map,
    List.mem_map, beq_iff_eq]
  constructor
  · rintro ⟨h1, h2⟩
    refine ⟨h1, fun p hp => ?_⟩
    have := h2 (Prod.map JsValue.str JsValue.str p) ⟨p, hp, rfl⟩
    obtain ⟨a, b⟩ := p
    simpa [isEqual_str] using this
  · rintro ⟨h1, h2⟩
    refine ⟨h1, fun q hq => ?_⟩
    obtain ⟨p, hp, rfl⟩ := hq
    obtain ⟨a, b⟩ := p
    simpa [isEqual_str] using h2 (a, b) hp

theorem strArrEq_refl (l : List String) : strArrEq l l = true := by
  rw [strArrEq]
  simp only [Bool.and_eq_true, beq_self_eq_true, true_and, List.all_eq_true]
  intro p hp
  have := mem_zip_self hp
  simp [this.1]

/-- `isEqual` is reflexive: the structural branches make a value
deep-equal itself, which is why modelling reference equality of
object-typed values as `false` in `strictEq` loses nothing. -/
theorem isEqual_refl (v : JsValue) : isEqual v v = true := by
  suffices h : ∀ n (v : JsValue), sizeOf v ≤ n → isEqual v v = true from
    h (sizeOf v) v le_rfl
  intro n
  induction n with
  | zero =>
    intro v hv
    exfalso
    cases v <;> simp at hv
  | succ n ih =>
    intro v hv
    cases v with
    | undefined => simp [isEqual, strictEq]
    | null => simp [isEqual, strictEq]
    | bool b => simp [isEqual, strictEq]
    | num m => simp [isEqual, strictEq]
    | str s => simp [isEqual, strictEq]
    | date t => simp [isEqual, strictEq, JsValue.isNullish]
    | arr xs =>
      rw [isEqual_arr_arr, attach_all_isEqual]
      simp only [beq_self_eq_true, Bool.true_and, List.all_eq_true]
      intro p hp
      obtain ⟨hfs, hmem⟩ := mem_zip_self hp
      have hsz : sizeOf p.1 ≤ n := by
        have h1 := List.sizeOf_lt_of_mem hmem
        have h2 : sizeOf (JsValue.arr xs) = 1 + sizeOf xs := by simp
        omega
      rw [← hfs]
      exact ih p.1 hsz
    | obj fs =>
      rw [isEqual_obj_obj]
      simp only [Bool.and_eq_true, List.all_eq_true]
      refine ⟨strArrEq_refl _, fun key _ => ?_⟩
      have hsz : sizeOf (jsGetF fs key) ≤ n := by
        have h1 := sizeOf_jsGetF_lt fs key
        have h2 : sizeOf (JsValue.obj fs) = 1 + sizeOf fs := by simp
        omega
      exact ih _ hsz

/-- Reading a key through a permutation of an object's fields: when the
keys are distinct (as they always are for a JS object), any reordering
of the field list gives the same property reads. -/
theorem jsGetF_perm {fa fb : List (String × JsValue)} (h : fa.Perm fb)
    (nd : (fa.map Prod.fst).Nodup) (key : String) :
    jsGetF fa key = jsGetF fb key := by
  induction h with
  | nil => rfl
  | cons x hperm ih =>
    rw [List.map_cons, List.nodup_cons] at nd
    cases hx : (x.1 == key) with
    | true => simp [jsGetF, List.find?, hx]
    | false =>
      simp only [jsGetF, List.find?, hx]
      exact ih nd.2
  | swap x y l =>
    rw [List.map_cons, List.map_cons, List.nodup_cons, List.nodup_cons] at nd
    have hne : y.1 ≠ x.1 := by
      intro hyx
      exact nd.1 (by simp [hyx])
    cases hy : (y.1 == key) with
    | true =>
      have hx : (x.1 == key) = false := by
        rw [beq_eq_false_iff_ne]
        intro hxk
        exact hne (by rw [beq_iff_eq] at hy; rw [hxk, hy])
      simp [jsGetF, List.find?, hx, hy]
    | false =>
      cases hx : (x.1 == key) with
      | true => simp [jsGetF, List.find?, hx, hy]
      | false => simp [jsGetF, List.find?, hx, hy]
  | trans h1 h2 ih1 ih2 =>
    have nd2 := ((h1.map Prod.fst).nodup_iff).mp nd
    rw [ih1 nd, ih2 nd2]

/-- `flatten` (the accumulator loop) is list concatenation in order. -/
theorem flatten_eq_flatten {T : Type} (l : List (List T)) :
    flatten l = l.flatten := by
  suffices h : ∀ (l : List (List T)) (acc : List T),
      List.foldl (fun combined result => combined ++ result) acc l =
        acc ++ l.flatten by
    simpa [flatten] using h l []
  intro l
  induction l with
  | nil => intro acc; simp
  | cons x xs ih =>
    intro acc
    simp [List.foldl_cons, ih, List.flatten_cons]

/-! ### Claims -/

/-- C1: for every value and every options context, `validateSchema` on the
literal schema `false` returns exactly the one-element error list
`[{code: "false", name: options.name, param: false}]`; in particular when
the current path is the top-level `"value"`, the result is
`[{code: "false", name: "value", param: false}]`. -/
theorem validateSchema_false_single_error {V : Type}
    (run : V → JsonSchema → JsValue → ValidateOptions V → List ValidationError)
    (value : JsValue) (options : ValidateOptions V) :
    validateSchema run (.bool false) value options =
      [{ code := "false", name := options.name, param := .bool false }] ∧
    (options.name = "value" →
      validateSchema run (.bool false) value options =
        [{ code := "false", name := "value", param := .bool false }]) := by
  refine ⟨rfl, fun h => ?_⟩
  simp [validateSchema, h]

theorem validateSchema_false_single_error_witness :
    validateSchema (V := Unit) (fun _ _ _ _ => []) (.bool false) .null
        ⟨"value", [], [], .bool true⟩ =
      [{ code := "false", name := "value", param := .bool false }] :=
  (validateSchema_false_single_error _ _ _).2 rfl

/-- C2: for every value and every options context, `validateSchema` on the
literal schema `true` returns the empty error list: every value is valid
against schema `true`. -/
theorem validateSchema_true_no_errors {V : Type}
    (run : V → JsonSchema → JsValue → ValidateOptions V → List ValidationError)
    (value : JsValue) (options : ValidateOptions V) :
    validateSchema run (.bool true) value options = [] :=
  rfl

/-- C3: on a Schema Object, `validateSchema` returns the concatenation of
the error lists of every registered validator applied to
`(schema, value, options)`, in registration order, each validator's list
kept in its internal order, with nothing dropped, reordered, or
short-circuited — that is, `List.flatten` of the mapped validator runs. -/
theorem validateSchema_obj_concat {V : Type}
    (run : V → JsonSchema → JsValue → ValidateOptions V → List ValidationError)
    (s : JsonSchema) (value : JsValue) (options : ValidateOptions V) :
    validateSchema run (.obj s) value options =
      (options.validators.map
        (fun validator => run validator s value options)).flatten := by
  simp [validateSchema, flatten_eq_flatten]

/-- C4: because `bKeys` is computed from `a`'s keys, `isEqual` on the
non-array objects `{x: 1}` and `{x: 1, y: 2}` returns `true` even though
the key sets differ (a false positive), while the swapped comparison
returns `false` — `isEqual` is not symmetric. -/
theorem isEqual_bKeys_from_a_bug :
    isEqual (.obj [("x", .num 1)]) (.obj [("x", .num 1), ("y", .num 2)]) = true ∧
    isEqual (.obj [("x", .num 1), ("y", .num 2)]) (.obj [("x", .num 1)]) = false := by
  have e11 : isEqual (.num 1) (.num 1) = true := by simp [isEqual, strictEq]
  have e2u : isEqual (.num 2) JsValue.undefined = false := by simp [isEqual, strictEq]
  constructor
  · rw [isEqual_obj_obj]
    simp [sortKeys, List.insertionSort, List.orderedInsert, strArrEq, jsGetF, e11]
  · have hs : sortKeys ["x", "y"] = ["x", "y"] := by
      simp [sortKeys, List.insertionSort, List.orderedInsert]
      decide
    rw [isEqual_obj_obj]
    simp only [List.map]
    rw [hs]
    simp [strArrEq, jsGetF, e11, e2u]

/-- C5: two non-array objects whose field lists are reorderings of one
another (with the keys distinct, as JS object keys always are) are
`isEqual`: key insertion order is irrelevant because both compared key
lists are sorted and each key's two values compare recursively. -/
theorem isEqual_obj_perm (fa fb : List (String × JsValue))
    (nd : (fa.map Prod.fst).Nodup) (h : fa.Perm fb) :
    isEqual (.obj fa) (.obj fb) = true := by
  rw [isEqual_obj_obj]
  simp only [Bool.and_eq_true, List.all_eq_true]
  refine ⟨strArrEq_refl _, fun key _ => ?_⟩
  rw [← jsGetF_perm h nd key]
  exact isEqual_refl _

theorem isEqual_obj_perm_witness :
    isEqual (.obj [("a", .num 1), ("b", .num 2)])
      (.obj [("b", .num 2), ("a", .num 1)]) = true :=
  isEqual_obj_perm _ _ (by simp) (List.Perm.swap _ _ _)

/-- C6: a schema argument that is neither a boolean nor a Schema Object —
the falsy non-schema values `null` and `undefined` — produces the empty
error list: it is treated as always-valid, like an empty schema. -/
theorem validateSchema_nullish_no_errors {V : Type}
    (run : V → JsonSchema → JsValue → ValidateOptions V → List ValidationError)
    (value : JsValue) (options : ValidateOptions V) :
    validateSchema run .null value options = [] ∧
    validateSchema run .undefined value options = [] :=
  ⟨rfl, rfl⟩

/-- C7: `validateSchema` is deterministic: its output is a function of the
schema, the value, and the observable fields of the options record alone —
there is no hidden mutable state, so two invocations with identical
arguments yield identical error lists. -/
theorem validateSchema_deterministic {V : Type}
    (run : V → JsonSchema → JsValue → ValidateOptions V → List ValidationError)
    (schema : Schema) (value : JsValue) (o₁ o₂ : ValidateOptions V)
    (hname : o₁.name = o₂.name) (hvals : o₁.validators = o₂.validators)
    (hrefs : o₁.refs = o₂.refs) (hroot : o₁.root = o₂.root) :
    validateSchema run schema value o₁ = validateSchema run schema value o₂ := by
  have h : o₁ = o₂ := by
    obtain ⟨n₁, v₁, r₁, t₁⟩ := o₁
    obtain ⟨n₂, v₂, r₂, t₂⟩ := o₂
    simp_all
  rw [h]

theorem validateSchema_deterministic_witness :
    validateSchema (V := Unit) (fun _ _ _ _ => []) (.obj [("type", .str "string")])
        (.str "a") ⟨"value", [()], [], .bool true⟩ =
      validateSchema (fun _ _ _ _ => []) (.obj [("type", .str "string")])
        (.str "a") ⟨"value", [()], [], .bool true⟩ :=
  validateSchema_deterministic _ _ _ _ _ rfl rfl rfl rfl

/-- C8: `childOptions` returns an options record whose `name` is the
parent's `name` followed by `"."` and the rendered key, with `validators`,
`refs`, and `root` (every remaining field) unchanged; the parent record
itself is a value and is not modified. -/
theorem childOptions_extends_name {V : Type} (k : PathKey)
    (o : ValidateOptions V) :
    (childOptions k o).name = o.name ++ "." ++ k.render ∧
    (childOptions k o).validators = o.validators ∧
    (childOptions k o).refs = o.refs ∧
    (childOptions k o).root = o.root :=
  ⟨rfl, rfl, rfl, rfl⟩

/-- C9: `isUniqueWith compare xs` is the subsequence of `xs` (so every
output element occurs in `xs` and relative input order is preserved) kept
by scanning left to right and retaining an element exactly when no earlier
kept element compares equal to it; consequently `compare y z = false` for
every earlier output element `y` and later output element `z`, and every
input element is either kept or compares equal to some kept element. -/
theorem isUniqueWith_characterization {T : Type} (compare : T → T → Bool)
    (xs : List T) :
    (isUniqueWith compare xs).Sublist xs ∧
    (isUniqueWith compare xs).Pairwise (fun y z => compare y z = false) ∧
    (∀ x ∈ xs, x ∈ isUniqueWith compare xs ∨
      ∃ y ∈ isUniqueWith compare xs, compare y x = true) ∧
    isUniqueWith compare xs = keepFirstBySpec compare xs := by
  refine ⟨?_, ?_, ?_, ?_⟩
  · obtain ⟨s, hs, hsub⟩ := isUniqueWithAux_append compare [] xs
    rw [isUniqueWith, hs]
    simpa using hsub
  · exact isUniqueWithAux_pairwise compare [] xs List.Pairwise.nil
  · exact isUniqueWithAux_complete compare [] xs
  · rw [isUniqueWith, keepFirstBySpec, isUniqueWithAux_eq_foldl]

theorem isUniqueWith_characterization_witness :
    (2 : Int) ∈ ([2, 2, 3] : List Int) ∧
    ((2 : Int) ∈ isUniqueWith (fun a b => a == b) ([2, 2, 3] : List Int) ∨
      ∃ y ∈ isUniqueWith (fun a b => a == b) ([2, 2, 3] : List Int),
        (y == 2) = true) :=
  ⟨by decide, (isUniqueWith_characterization _ _).2.2.1 2 (by decide)⟩

/-- C10: `isUniqueWith` is idempotent for every comparator, including
non-transitive and non-symmetric ones: a second pass keeps every element
of the first pass's output, because no earlier output element compares
equal to a later one. -/
theorem isUniqueWith_idempotent {T : Type} (compare : T → T → Bool)
    (xs : List T) :
    isUniqueWith compare (isUniqueWith compare xs) = isUniqueWith compare xs := by
  have hp : (isUniqueWith compare xs).Pairwise (fun y z => compare y z = false) :=
    isUniqueWithAux_pairwise compare [] xs List.Pairwise.nil
  have h := isUniqueWithAux_of_pairwise compare [] (isUniqueWith compare xs)
    (fun x _ y hy => absurd hy (List.not_mem_nil y)) hp
  simpa [isUniqueWith] using h

end Laminar
